import Mathlib

/-!
Verification of the EmbeddingPolicy dialogue-action ranking policy
(rasa_core/policies/embedding_policy.py) against its specification.

The numeric runtime (tensorflow and numpy) computes with floating point; it
is modelled here over the real numbers, with every epsilon guard of the
source kept explicit.  Random draws (dropout masks, numpy sampling) are
modelled by passing the underlying random choices as explicit arguments.
-/

namespace EmbeddingPolicy

/-- Python configuration value for hidden_layer_size: the loader accepts
either a single number or a list of per-layer sizes, which is how
the static method receives it. -/
inductive HiddenLayerSize where
  | scalar (v : ℤ)
  | sizeList (l : List ℤ)
deriving DecidableEq

/-- The static method that validates the tower architecture
configuration: it clamps a negative layer count to zero, keeps a list whose
length matches the count, broadcasts a non-list value or the first element
of a mismatched non-empty list to all layers, and raises ValueError for an
empty list with a positive count.  The Except error value stands for the
raised ValueError. -/
def check_hidden_layer_sizes (numLayers : ℤ) (layerSize : HiddenLayerSize) :
    Except String (ℤ × List ℤ) :=
  let n : ℤ := if numLayers < 0 then 0 else numLayers
  match layerSize with
  | .scalar v => .ok (n, List.replicate n.toNat v)
  | .sizeList l =>
      if (l.length : ℤ) = n then .ok (n, l)
      else
        match l with
        | [] => .error "hidden_layer_size is an empty list while num_hidden_layers > 0"
        | v :: _ => .ok (n, List.replicate n.toNat v)

/-- The list comprehension negative_indexes in _create_batch_b: all action
indices except the ground-truth index of the current (dialogue, step) pair. -/
def negative_indexes (numActions groundTruth : ℕ) : List ℕ :=
  (List.range numActions).filter (fun i => i ≠ groundTruth)

/-- Numpy random choice with its default replace=True: each of the size
draws independently picks an element of xs; the raw random numbers are given
by an oracle and reduced modulo the length of xs. -/
def np_random_choice (xs : List ℕ) (size : ℕ) (oracle : ℕ → ℕ) : List ℕ :=
  (List.range size).map (fun k => xs.getD (oracle k % xs.length) 0)

/-- The negative action indices _create_batch_b draws for one
(dialogue, step) pair with ground-truth index groundTruth. -/
def create_batch_b_negs (numActions groundTruth numNeg : ℕ)
    (oracle : ℕ → ℕ) : List ℕ :=
  np_random_choice (negative_indexes numActions groundTruth) numNeg oracle

/-- The clamp applied by train before any batch is built:
num_neg becomes min(num_neg, num_actions - 1). -/
def clamp_num_neg (numNeg numActions : ℕ) : ℕ := min numNeg (numActions - 1)

/-- C6: after configuration loading the hidden layer size list length equals
the layer count: a non-list value is broadcast, a mismatched non-empty list
is broadcast from its first element, a negative layer count is clamped to
zero, and an empty size list with a positive layer count raises ValueError. -/
theorem check_hidden_layer_sizes_spec (numLayers : ℤ)
    (layerSize : HiddenLayerSize) :
    match check_hidden_layer_sizes numLayers layerSize with
    | .ok (n, sizes) =>
        (sizes.length : ℤ) = n ∧ n = max numLayers 0 ∧
        (match layerSize with
         | .scalar v => sizes = List.replicate n.toNat v
         | .sizeList l => sizes = l ∨ sizes = List.replicate n.toNat (l.headD 0))
    | .error _ => layerSize = .sizeList [] ∧ 0 < numLayers := by
  rcases lt_or_ge numLayers 0 with h | h
  · rcases layerSize with v | l
    · simp only [check_hidden_layer_sizes, if_pos h]
      refine ⟨by simp, by omega, by simp⟩
    · simp only [check_hidden_layer_sizes, if_pos h]
      by_cases hlen : (l.length : ℤ) = 0
      · simp only [if_pos hlen]
        exact ⟨hlen, by omega, Or.inl trivial⟩
      · simp only [if_neg hlen]
        match l, hlen with
        | v :: t, hlen => exact ⟨by simp, by omega, Or.inr (by simp)⟩
  · rcases layerSize with v | l
    · simp only [check_hidden_layer_sizes, if_neg (not_lt.mpr h)]
      exact ⟨by simp [Int.toNat_of_nonneg h], by omega, by simp⟩
    · simp only [check_hidden_layer_sizes, if_neg (not_lt.mpr h)]
      by_cases hlen : (l.length : ℤ) = numLayers
      · simp only [if_pos hlen]
        exact ⟨hlen, by omega, Or.inl trivial⟩
      · simp only [if_neg hlen]
        match l, hlen with
        | [], hlen => exact ⟨rfl, by simp at hlen; omega⟩
        | v :: t, hlen =>
            exact ⟨by simp [Int.toNat_of_nonneg h], by omega, Or.inr (by simp)⟩

/-- C2 counterexample: with 3 actions, ground-truth index 0 and the default
num_neg = 20 clamped to 2, the oracle that always answers 0 makes numpy
choice (whose default is replace=True, sampling WITH replacement) draw the
index 1 twice, so the sample is not duplicate-free: the claimed sampling
without replacement does not match the code. -/
theorem create_batch_b_negs_duplicates :
    create_batch_b_negs 3 0 (clamp_num_neg 20 3) (fun _ => 0) = [1, 1] ∧
    ¬ (create_batch_b_negs 3 0 (clamp_num_neg 20 3) (fun _ => 0)).Nodup := by
  decide

/-- C2 amended: the sampler draws num_neg indices uniformly WITH replacement
(the numpy default) from the action indices minus the ground truth: for every
random oracle the drawn list never contains the ground-truth index and its
length with multiplicity equals min(num_neg, num_actions - 1) after the clamp
at training start; distinct draws are not guaranteed. -/
theorem create_batch_b_negs_spec (numActions groundTruth numNeg : ℕ)
    (oracle : ℕ → ℕ) (_hgt : groundTruth < numActions) (h2 : 2 ≤ numActions) :
    groundTruth ∉ create_batch_b_negs numActions groundTruth
        (clamp_num_neg numNeg numActions) oracle ∧
    (create_batch_b_negs numActions groundTruth
        (clamp_num_neg numNeg numActions) oracle).length =
      min numNeg (numActions - 1) := by
  constructor
  · intro hmem
    simp only [create_batch_b_negs, np_random_choice, List.mem_map,
      List.mem_range] at hmem
    obtain ⟨k, -, hk⟩ := hmem
    set xs := negative_indexes numActions groundTruth with hxs
    have hne : xs ≠ [] := by
      have hidx : (if groundTruth = 0 then 1 else 0) ∈ xs := by
        rw [hxs]
        unfold negative_indexes
        rw [List.mem_filter]
        constructor
        · rw [List.mem_range]
          split <;> omega
        · split <;> simp_all <;> omega
      exact List.ne_nil_of_mem hidx
    have hlen : 0 < xs.length := List.length_pos.mpr hne
    have hlt : oracle k % xs.length < xs.length := Nat.mod_lt _ hlen
    have hin : xs.getD (oracle k % xs.length) 0 ∈ xs := by
      rw [List.getD_eq_getElem xs 0 hlt]
      exact List.getElem_mem hlt
    rw [hk] at hin
    rw [hxs] at hin
    unfold negative_indexes at hin
    rw [List.mem_filter] at hin
    simp at hin
  · simp [create_batch_b_negs, np_random_choice, clamp_num_neg]

/-- Witness for the amended C2 at 3 actions, ground truth 0, num_neg 20,
the all-zeros oracle. -/
theorem create_batch_b_negs_spec_witness :
    0 ∉ create_batch_b_negs 3 0 (clamp_num_neg 20 3) (fun _ => 0) ∧
    (create_batch_b_negs 3 0 (clamp_num_neg 20 3) (fun _ => 0)).length =
      min 20 (3 - 1) :=
  create_batch_b_negs_spec 3 0 20 (fun _ => 0) (by decide) (by decide)

/-- The two similarity kinds the configuration accepts. -/
inductive SimType where
  | cosine
  | inner
deriving DecidableEq

/-- The value of similarity_type in the defaults dictionary. -/
def default_similarity_type : SimType := SimType.cosine

/-- Post-processing of the final similarity row inside
predict_action_probabilities: under cosine, negative scores are clipped to
zero (and the vector is not renormalized); under inner, scores are
exponentiated and divided by their total. -/
noncomputable def post_process : SimType → List ℝ → List ℝ
  | SimType.cosine, r => r.map (fun x => if x < 0 then 0 else x)
  | SimType.inner, r => r.map (fun x => Real.exp x / (r.map Real.exp).sum)

/-- The row sim at batch element 0 and the final (most recent) step, as the
indexing of the similarity tensor of shape (batch, time, action) selects it. -/
def final_step_row (sim : List (List (List ℝ))) : List ℝ :=
  (sim.headD []).getLastD []

/-- The trained tensorflow artifact a policy owns: the restored graph, as the
map from a featurized tracker (abstracted as an identifier) to the similarity
tensor over (time, action) for batch element 0, together with the pickled
encoded-action table.  Checkpoint save and restore through the saver is
modelled as exact restoration of this artifact. -/
structure TrainedModel where
  simFn : ℕ → List (List ℝ)
  encodedAllActions : List (List ℝ)

/-- The slice of policy state the inference and persistence claims depend on:
the loaded similarity_type hyperparameter and the optional trained session. -/
structure PolicyModel where
  similarity_type : SimType
  session : Option TrainedModel

/-- The files persist writes under a path: the checkpoint with the graph and
its parameters, and the pickled encoded-action side file.  No hyperparameter
is part of the stored data. -/
structure Storage where
  checkpoint : Option TrainedModel

/-- The prediction method: with no trained session it logs an error and
returns num_actions zeros; otherwise it runs the graph on the tracker, takes
the final similarity row of batch element 0, and post-processes it according
to similarity_type. -/
noncomputable def predict_action_probabilities (p : PolicyModel)
    (tracker numActions : ℕ) : List ℝ :=
  match p.session with
  | none => List.replicate numActions 0
  | some m => post_process p.similarity_type (final_step_row [m.simFn tracker])

/-- The persist method: a warning and no-op without a trained session, else
it writes the checkpoint and the encoded-action side file; the configuration
is not serialized. -/
def persist (p : PolicyModel) (s : Storage) : Storage :=
  match p.session with
  | none => s
  | some m => { checkpoint := some m }

/-- The load classmethod with an existing checkpoint: it restores the graph
and rebuilds the instance through the constructor, which calls the parameter
loader with no overrides, so every hyperparameter takes its default value. -/
def load (s : Storage) : PolicyModel :=
  match s.checkpoint with
  | some m => { similarity_type := default_similarity_type, session := some m }
  | none => { similarity_type := default_similarity_type, session := none }

/-- C7: predicting on a policy with no trained session does not raise: it
returns a vector of num_actions entries, all zero. -/
theorem predict_untrained_zeros (st : SimType) (tracker numActions : ℕ) :
    predict_action_probabilities ⟨st, none⟩ tracker numActions =
      List.replicate numActions 0 ∧
    (predict_action_probabilities ⟨st, none⟩ tracker numActions).length =
      numActions ∧
    ∀ x ∈ predict_action_probabilities ⟨st, none⟩ tracker numActions, x = 0 := by
  refine ⟨rfl, ?_, ?_⟩
  · simp [predict_action_probabilities]
  · intro x hx
    simp only [predict_action_probabilities] at hx
    exact List.eq_of_mem_replicate hx

/-- C5: inference uses only the final step similarity row; the cosine branch
clips negative scores to zero without renormalizing, and the inner branch is
the elementwise exponential normalized to total 1. -/
theorem predict_postprocessing (m : TrainedModel) (tracker numActions : ℕ)
    (hrow : final_step_row [m.simFn tracker] ≠ []) :
    (predict_action_probabilities ⟨SimType.cosine, some m⟩ tracker numActions =
        (final_step_row [m.simFn tracker]).map (fun x => if x < 0 then 0 else x) ∧
      ∀ x ∈ predict_action_probabilities ⟨SimType.cosine, some m⟩ tracker
          numActions, 0 ≤ x) ∧
    (predict_action_probabilities ⟨SimType.inner, some m⟩ tracker numActions =
        (final_step_row [m.simFn tracker]).map (fun x =>
          Real.exp x / ((final_step_row [m.simFn tracker]).map Real.exp).sum) ∧
      (predict_action_probabilities ⟨SimType.inner, some m⟩ tracker
          numActions).sum = 1) := by
  refine ⟨⟨rfl, ?_⟩, rfl, ?_⟩
  · intro x hx
    simp only [predict_action_probabilities, post_process, List.mem_map] at hx
    obtain ⟨y, -, hy⟩ := hx
    subst hy
    split
    · exact le_refl 0
    · exact le_of_not_lt (by assumption)
  · set row := final_step_row [m.simFn tracker] with hrowdef
    have hpos : 0 < (row.map Real.exp).sum := by
      apply List.sum_pos
      · intro x hx
        obtain ⟨y, -, hy⟩ := List.mem_map.mp hx
        exact hy ▸ Real.exp_pos y
      · simpa using hrow
    simp only [predict_action_probabilities, post_process]
    rw [show (fun x => Real.exp x / (row.map Real.exp).sum) =
          (fun x => Real.exp x * ((row.map Real.exp).sum)⁻¹) from
        funext fun x => div_eq_mul_inv _ _]
    rw [List.sum_map_mul_right, ← hrowdef]
    exact mul_inv_cancel₀ (ne_of_gt hpos)

/-- A concrete trained artifact for the inference witnesses. -/
def demo_model : TrainedModel where
  simFn := fun _ => [[1, -2]]
  encodedAllActions := []

/-- Witness for C5 at a graph whose final similarity row is the two-action
row (1, -2). -/
theorem predict_postprocessing_witness :
    (predict_action_probabilities ⟨SimType.cosine, some demo_model⟩ 0 2 =
        (final_step_row [demo_model.simFn 0]).map (fun x => if x < 0 then 0 else x) ∧
      ∀ x ∈ predict_action_probabilities ⟨SimType.cosine, some demo_model⟩ 0 2,
        0 ≤ x) ∧
    (predict_action_probabilities ⟨SimType.inner, some demo_model⟩ 0 2 =
        (final_step_row [demo_model.simFn 0]).map (fun x =>
          Real.exp x / ((final_step_row [demo_model.simFn 0]).map Real.exp).sum) ∧
      (predict_action_probabilities ⟨SimType.inner, some demo_model⟩ 0 2).sum = 1) :=
  predict_postprocessing demo_model 0 2
    (by simp [final_step_row, demo_model])

/-- A trained artifact whose final similarity row is (0, 0), used to separate
the two post-processing branches. -/
def zero_row_model : TrainedModel where
  simFn := fun _ => [[0, 0]]
  encodedAllActions := []

/-- C9 counterexample: a policy trained with similarity_type inner answers
(1/2, 1/2) on a final row of zeros, but after persist and load the restored
instance carries the default configuration (cosine) and answers (0, 0): the
round trip does not reproduce the inference scores for a non-default
configuration. -/
theorem persist_load_changes_scores :
    predict_action_probabilities ⟨SimType.inner, some zero_row_model⟩ 0 2 ≠
      predict_action_probabilities
        (load (persist ⟨SimType.inner, some zero_row_model⟩ ⟨none⟩)) 0 2 := by
  intro h
  have h2 : ([Real.exp 0 / (Real.exp 0 + (Real.exp 0 + 0)),
      Real.exp 0 / (Real.exp 0 + (Real.exp 0 + 0))] : List ℝ) = [0, 0] := by
    simpa [predict_action_probabilities, persist, load, post_process,
      final_step_row, zero_row_model, default_similarity_type] using h
  rw [Real.exp_zero] at h2
  have h3 : (1 : ℝ) / (1 + (1 + 0)) = 0 := (List.cons.injEq _ _ _ _).mp h2 |>.1
  norm_num at h3

/-- C9 amended: for a trained policy whose similarity_type is the default
(cosine), persist followed by load on an untouched storage yields an instance
with identical inference scores on every tracker; the restriction is forced
because load restores no hyperparameter overrides. -/
theorem persist_load_roundtrip_default (p : PolicyModel) (s : Storage)
    (m : TrainedModel) (tracker numActions : ℕ)
    (hdef : p.similarity_type = default_similarity_type)
    (hsess : p.session = some m) :
    predict_action_probabilities (load (persist p s)) tracker numActions =
      predict_action_probabilities p tracker numActions := by
  obtain ⟨pt, psess⟩ := p
  cases hsess
  cases hdef
  rfl

/-- Witness for the amended C9 at a concrete cosine-configured policy. -/
theorem persist_load_roundtrip_default_witness :
    predict_action_probabilities
        (load (persist ⟨SimType.cosine, some demo_model⟩ ⟨none⟩)) 0 2 =
      predict_action_probabilities ⟨SimType.cosine, some demo_model⟩ 0 2 :=
  persist_load_roundtrip_default ⟨SimType.cosine, some demo_model⟩ ⟨none⟩
    demo_model 0 2 rfl rfl

/-- C10: an instance returned by load carries only the default configuration:
after persisting any trained policy, the loaded instance has the default
similarity_type, which is cosine, so its predictions are post-processed by
the cosine branch regardless of the configuration the policy was trained
with. -/
theorem load_restores_default_config (p : PolicyModel) (s : Storage)
    (m : TrainedModel) (tracker numActions : ℕ)
    (hsess : p.session = some m) :
    (load (persist p s)).similarity_type = default_similarity_type ∧
    default_similarity_type = SimType.cosine ∧
    predict_action_probabilities (load (persist p s)) tracker numActions =
      post_process SimType.cosine (final_step_row [m.simFn tracker]) := by
  obtain ⟨pt, psess⟩ := p
  cases hsess
  exact ⟨rfl, rfl, rfl⟩

/-- Witness for C10 at a policy trained with the non-default inner kind. -/
theorem load_restores_default_config_witness :
    (load (persist ⟨SimType.inner, some demo_model⟩ ⟨none⟩)).similarity_type =
      default_similarity_type ∧
    default_similarity_type = SimType.cosine ∧
    predict_action_probabilities
        (load (persist ⟨SimType.inner, some demo_model⟩ ⟨none⟩)) 0 2 =
      post_process SimType.cosine (final_step_row [demo_model.simFn 0]) :=
  load_restores_default_config ⟨SimType.inner, some demo_model⟩ ⟨none⟩
    demo_model 0 2 rfl

/-- One activation of tf.nn.dropout: kept with probability keepProb and then
scaled by the reciprocal of keepProb, dropped to zero otherwise; the
Bernoulli mask is an explicit argument. -/
noncomputable def tf_dropout (keepProb : ℝ) (kept : Bool) (x : ℝ) : ℝ :=
  if kept then x / keepProb else 0

/-- The helper no_scale_dropout: it multiplies tf.nn.dropout by keep_prob,
undoing the inverse scaling, with keep_prob = 1 - rate * cast(training). -/
noncomputable def no_scale_dropout (rate : ℝ) (training kept : Bool)
    (x : ℝ) : ℝ :=
  (1 - rate * (if training then 1 else 0)) *
    tf_dropout (1 - rate * (if training then 1 else 0)) kept x

/-- Expectation of no_scale_dropout over the Bernoulli dropout mask, which
keeps an activation with probability keep_prob. -/
noncomputable def no_scale_dropout_expectation (rate : ℝ) (training : Bool)
    (x : ℝ) : ℝ :=
  (1 - rate * (if training then 1 else 0)) *
      no_scale_dropout rate training true x +
    (1 - (1 - rate * (if training then 1 else 0))) *
      no_scale_dropout rate training false x

/-- C8 counterexample: at dropout rate 1/2 in training mode, the expected
output of no_scale_dropout on the activation 1 is 1/2, not 1: the per-layer
rescaling does not preserve the expected activation. -/
theorem no_scale_dropout_not_mean_preserving :
    no_scale_dropout_expectation (1 / 2) true 1 ≠ 1 := by
  simp only [no_scale_dropout_expectation, no_scale_dropout, tf_dropout]
  norm_num

/-- C8 amended: in training mode the expectation of no_scale_dropout over the
dropout mask is (1 - rate) * x — kept activations keep their raw magnitude
instead of being scaled up, so the expected activation shrinks by the keep
probability — while with training off the output is exactly x. -/
theorem no_scale_dropout_expectation_spec (rate x : ℝ)
    (_h0 : 0 ≤ rate) (h1 : rate < 1) :
    no_scale_dropout_expectation rate true x = (1 - rate) * x ∧
    no_scale_dropout rate false true x = x ∧
    no_scale_dropout_expectation rate false x = x := by
  have hne : (1 : ℝ) - rate ≠ 0 := sub_ne_zero.mpr (ne_of_gt h1)
  refine ⟨?_, ?_, ?_⟩
  · simp only [no_scale_dropout_expectation, no_scale_dropout, tf_dropout,
      if_pos, if_true, if_false]
    field_simp
  · simp [no_scale_dropout, tf_dropout]
  · simp [no_scale_dropout_expectation, no_scale_dropout, tf_dropout]

/-- Witness for the amended C8 at rate 1/2 and activation 3. -/
theorem no_scale_dropout_expectation_spec_witness :
    no_scale_dropout_expectation (1 / 2) true 3 = (1 - 1 / 2) * 3 ∧
    no_scale_dropout (1 / 2) false true 3 = 3 ∧
    no_scale_dropout_expectation (1 / 2) false 3 = 3 :=
  no_scale_dropout_expectation_spec (1 / 2) 3 (by norm_num) (by norm_num)

/-- The logistic sigmoid. -/
noncomputable def sigmoid (x : ℝ) : ℝ := 1 / (1 + Real.exp (-x))

/-- The parameters the cell factory passes to the chrono LSTM cell, per
state component (components are independent): the chrono-initialized gate
biases, the recurrent dropout keep probability (a tensor scaled by the
training flag), and the layer normalization switch, passed as False. -/
structure ChronoCell where
  forget_bias : ℝ
  input_bias : ℝ
  keep_prob : ℝ
  layer_norm : Bool

/-- The cell factory _create_rnn_cell: it draws u from the unit interval once
per run and sets forget_bias to log((characteristic_time - 2) * u + 1),
input_bias to its exact negation, keep_prob to
1 - droprate_rnn * cast(is_training), and layer_norm to False. -/
noncomputable def create_rnn_cell (characteristicTime u droprateRnn : ℝ)
    (isTraining : Bool) : ChronoCell where
  forget_bias := Real.log ((characteristicTime - 2) * u + 1)
  input_bias := -Real.log ((characteristicTime - 2) * u + 1)
  keep_prob := 1 - droprateRnn * (if isTraining then 1 else 0)
  layer_norm := false

/-- The recurrent cell state (c, h). -/
structure LSTMState where
  c : ℝ
  h : ℝ

/-- The chrono LSTM cell call on one state component, with the gate
pre-activations i, j, f, o produced by the linear map of the concatenated
input and hidden state, the layer normalization transforms as explicit
functions (never applied here since the factory passes layer_norm False),
and the recurrent dropout mask explicit.  The candidate g is tanh(j) run
through dropout (the keep probability is a tensor, so the cell always
invokes dropout); the transition is
new_c = c * sigmoid(f + forget_bias) + g * sigmoid(i + input_bias) and
new_h = tanh(new_c) * sigmoid(o). -/
noncomputable def chrono_cell_call (cell : ChronoCell)
    (normI normJ normF normO normC : ℝ → ℝ) (kept : Bool)
    (i j f o : ℝ) (st : LSTMState) : ℝ × LSTMState :=
  let i' := if cell.layer_norm then normI i else i
  let j' := if cell.layer_norm then normJ j else j
  let f' := if cell.layer_norm then normF f else f
  let o' := if cell.layer_norm then normO o else o
  let g := tf_dropout cell.keep_prob kept (Real.tanh j')
  let newC0 := st.c * sigmoid (f' + cell.forget_bias) +
    g * sigmoid (i' + cell.input_bias)
  let newC := if cell.layer_norm then normC newC0 else newC0
  let newH := Real.tanh newC * sigmoid o'
  (newH, ⟨newC, newH⟩)

/-- C4: the cell built by the factory carries the chrono forget bias
log((characteristic_time - 2) * u + 1) and an input bias that is its exact
negation, and one step of the cell computes
new_c = c * sigmoid(f + bias_f) + g * sigmoid(i + bias_i)
with g the dropout-masked candidate tanh(j), and
new_h = tanh(new_c) * sigmoid(o); at inference the keep probability is 1 and
the candidate is exactly tanh(j). -/
theorem chrono_cell_spec (ct u dr : ℝ) (training kept : Bool)
    (nI nJ nF nO nC : ℝ → ℝ) (i j f o : ℝ) (st : LSTMState) :
    (create_rnn_cell ct u dr training).forget_bias =
        Real.log ((ct - 2) * u + 1) ∧
    (create_rnn_cell ct u dr training).input_bias =
        -(create_rnn_cell ct u dr training).forget_bias ∧
    (chrono_cell_call (create_rnn_cell ct u dr training)
        nI nJ nF nO nC kept i j f o st).2.c =
      st.c * sigmoid (f + (create_rnn_cell ct u dr training).forget_bias) +
        tf_dropout (create_rnn_cell ct u dr training).keep_prob kept
            (Real.tanh j) *
          sigmoid (i + (create_rnn_cell ct u dr training).input_bias) ∧
    (chrono_cell_call (create_rnn_cell ct u dr training)
        nI nJ nF nO nC kept i j f o st).1 =
      Real.tanh ((chrono_cell_call (create_rnn_cell ct u dr training)
        nI nJ nF nO nC kept i j f o st).2.c) * sigmoid o ∧
    (chrono_cell_call (create_rnn_cell ct u dr false)
        nI nJ nF nO nC true i j f o st).2.c =
      st.c * sigmoid (f + Real.log ((ct - 2) * u + 1)) +
        Real.tanh j * sigmoid (i - Real.log ((ct - 2) * u + 1)) := by
  refine ⟨rfl, rfl, rfl, rfl, ?_⟩
  simp only [chrono_cell_call, create_rnn_cell, tf_dropout, if_true,
    if_false, Bool.false_eq_true, mul_zero, sub_zero, div_one]
  simp [sub_eq_add_neg]

/-- Dot product along the embedding axis. -/
noncomputable def listDot (u v : List ℝ) : ℝ :=
  (List.zipWith (fun a b => a * b) u v).sum

/-- The tensorflow l2 normalization along the last axis, with its epsilon
guard under the square root. -/
noncomputable def l2_normalize (v : List ℝ) : List ℝ :=
  v.map (fun x => x / Real.sqrt (max ((v.map (fun y => y * y)).sum) 1e-12))

/-- The tensorflow reduce_max over the last axis of a non-empty list. -/
noncomputable def reduceMax : List ℝ → ℝ
  | [] => 0
  | [x] => x
  | x :: y :: tl => max x (reduceMax (y :: tl))

/-- Reduce_max of a list of zeros is zero. -/
theorem reduceMax_eq_zero {l : List ℝ} (h : ∀ x ∈ l, x = 0) :
    reduceMax l = 0 := by
  induction l with
  | nil => rfl
  | cons x tl ih =>
    cases tl with
    | nil => exact h x (by simp)
    | cons y tl2 =>
      rw [reduceMax, h x (by simp), ih (fun z hz => h z (by simp [hz]))]
      simp

/-- One recurrence step input to the similarity and loss engine: the
dialogue embedding, the candidate action embeddings (index 0 the positive),
and the step-validity mask entry. -/
structure StepData where
  embDial : List ℝ
  embActs : List (List ℝ)
  mask : ℝ

/-- The similarity tensors of _tf_sim at one step: under cosine both sides
are l2-normalized first; sim is the masked dot of the dialogue embedding
with every candidate, and sim_act the masked dot of candidate 0 with every
later candidate. -/
noncomputable def tf_sim_step (st : SimType) (d : StepData) :
    List ℝ × List ℝ :=
  let embActs := match st with
    | SimType.cosine => d.embActs.map l2_normalize
    | SimType.inner => d.embActs
  let embDial := match st with
    | SimType.cosine => l2_normalize d.embDial
    | SimType.inner => d.embDial
  (embActs.map (fun a => listDot embDial a * d.mask),
   (embActs.drop 1).map (fun a => listDot (embActs.headD []) a * d.mask))

/-- The scalar _tf_loss computes under use_max_sim_neg, composed with
_tf_sim: per step (max(0, mu_pos - sim[0]) + max(0, mu_neg + max(sim[1:])))
times the mask, plus max(0, max(sim_act)) * C_emb; summed over time, divided
by the valid step count of the dialogue, averaged over the batch, plus the
regularization loss. -/
noncomputable def tf_loss_max_sim (st : SimType) (muPos muNeg Cemb : ℝ)
    (batch : List (List StepData)) (regLoss : ℝ) : ℝ :=
  (batch.map (fun steps =>
      (steps.map (fun d =>
        (max 0 (muPos - (tf_sim_step st d).1.headD 0) +
            max 0 (muNeg + reduceMax ((tf_sim_step st d).1.drop 1))) * d.mask +
          max 0 (reduceMax (tf_sim_step st d).2) * Cemb)).sum /
        (steps.map (fun d => d.mask)).sum)).sum / (batch.length : ℝ) + regLoss

/-- The similarity of two embeddings as the spec describes it: the dot
product, after l2 normalization under the cosine kind. -/
noncomputable def spec_similarity (st : SimType) (u v : List ℝ) : ℝ :=
  match st with
  | SimType.cosine => listDot (l2_normalize u) (l2_normalize v)
  | SimType.inner => listDot u v

/-- Modelled from the claim's words for comparison: the max-sim-negative
loss whose inter-action term is C_emb times the RAW maximum inter-action
similarity, with no hinge, masked by step validity, summed over time,
divided by the valid step count, averaged over the batch, plus the
regularization loss. -/
noncomputable def claimed_loss_raw_act (st : SimType) (muPos muNeg Cemb : ℝ)
    (batch : List (List StepData)) (regLoss : ℝ) : ℝ :=
  (batch.map (fun steps =>
      (steps.map (fun d =>
        ((max 0 (muPos -
              (d.embActs.map (spec_similarity st d.embDial)).headD 0) +
            max 0 (muNeg + reduceMax
              ((d.embActs.map (spec_similarity st d.embDial)).drop 1))) +
          Cemb * reduceMax ((d.embActs.drop 1).map
            (spec_similarity st (d.embActs.headD [])))) * d.mask)).sum /
        (steps.map (fun d => d.mask)).sum)).sum / (batch.length : ℝ) + regLoss

/-- The amended claim as a formula: identical to the raw-act variant except
that the inter-action penalty is hinged, C_emb * max(0, max(sim_act)). -/
noncomputable def spec_loss_hinged (st : SimType) (muPos muNeg Cemb : ℝ)
    (batch : List (List StepData)) (regLoss : ℝ) : ℝ :=
  (batch.map (fun steps =>
      (steps.map (fun d =>
        ((max 0 (muPos -
              (d.embActs.map (spec_similarity st d.embDial)).headD 0) +
            max 0 (muNeg + reduceMax
              ((d.embActs.map (spec_similarity st d.embDial)).drop 1))) +
          Cemb * max 0 (reduceMax ((d.embActs.drop 1).map
            (spec_similarity st (d.embActs.headD []))))) * d.mask)).sum /
        (steps.map (fun d => d.mask)).sum)).sum / (batch.length : ℝ) + regLoss

/-- Heads of mapped candidate lists commute with l2 normalization. -/
theorem headD_map_l2 (l : List (List ℝ)) :
    (l.map l2_normalize).headD [] = l2_normalize (l.headD []) := by
  cases l <;> simp [l2_normalize]

/-- The per-step summand of _tf_loss equals the per-step summand of the
hinged spec formula whenever the mask entry is 0 or 1. -/
theorem step_loss_eq (st : SimType) (muPos muNeg Cemb : ℝ) (d : StepData)
    (hm : d.mask = 0 ∨ d.mask = 1) :
    (max 0 (muPos - (tf_sim_step st d).1.headD 0) +
        max 0 (muNeg + reduceMax ((tf_sim_step st d).1.drop 1))) * d.mask +
      max 0 (reduceMax (tf_sim_step st d).2) * Cemb =
    ((max 0 (muPos -
          (d.embActs.map (spec_similarity st d.embDial)).headD 0) +
        max 0 (muNeg + reduceMax
          ((d.embActs.map (spec_similarity st d.embDial)).drop 1))) +
      Cemb * max 0 (reduceMax ((d.embActs.drop 1).map
        (spec_similarity st (d.embActs.headD []))))) * d.mask := by
  obtain ⟨dial, acts, m⟩ := d
  rcases hm with hm | hm <;> simp only at hm <;> subst hm
  · have hzero : reduceMax ((tf_sim_step st ⟨dial, acts, 0⟩).2) = 0 := by
      apply reduceMax_eq_zero
      intro x hx
      cases st <;>
        simp only [tf_sim_step, List.mem_map] at hx <;>
        obtain ⟨a, -, ha⟩ := hx <;>
        simp [← ha]
    rw [hzero]
    simp
  · cases st
    · simp only [tf_sim_step, headD_map_l2,
        show spec_similarity SimType.cosine = fun u v =>
          listDot (l2_normalize u) (l2_normalize v) from rfl,
        mul_one, ← List.map_drop, List.map_map, Function.comp_def]
      ring
    · simp only [tf_sim_step,
        show spec_similarity SimType.inner = fun u v => listDot u v from rfl,
        mul_one]
      ring

/-- C3 counterexample: one valid step with a one-dimensional dialogue
embedding (1) and candidate embeddings (1) and (-1) under the inner kind and
the default margins: all inter-action similarities are negative, the code
hinges the inter-action term to zero while the claimed raw term subtracts
C_emb, so the two losses differ (0 versus -0.8). -/
theorem tf_loss_act_hinge_cex :
    tf_loss_max_sim SimType.inner (8 / 10) (-(2 / 10)) (8 / 10)
        [[⟨[1], [[1], [-1]], 1⟩]] 0 ≠
      claimed_loss_raw_act SimType.inner (8 / 10) (-(2 / 10)) (8 / 10)
        [[⟨[1], [[1], [-1]], 1⟩]] 0 := by
  simp only [tf_loss_max_sim, claimed_loss_raw_act, tf_sim_step,
    spec_similarity, listDot, reduceMax, List.map_cons, List.map_nil,
    List.zipWith_cons_cons, List.zipWith_nil_right, List.sum_cons,
    List.sum_nil, List.drop_succ_cons, List.drop_nil, List.headD_cons,
    List.length_cons, List.length_nil]
  norm_num [max_def]

/-- C3 amended: under use_max_sim_neg the per-step loss is
hinge(mu_pos - sim_pos) + hinge(mu_neg + max(sim_negatives)) plus the HINGED
inter-action term C_emb * max(0, max(sim_act)); everything is masked by step
validity, summed over time, divided by the valid step count per dialogue,
averaged over the batch, and the regularization penalty is added. -/
theorem tf_loss_max_sim_spec (st : SimType) (muPos muNeg Cemb regLoss : ℝ)
    (batch : List (List StepData))
    (hmask : ∀ steps ∈ batch, ∀ d ∈ steps, d.mask = 0 ∨ d.mask = 1) :
    tf_loss_max_sim st muPos muNeg Cemb batch regLoss =
      spec_loss_hinged st muPos muNeg Cemb batch regLoss := by
  unfold tf_loss_max_sim spec_loss_hinged
  congr 3
  refine List.map_congr_left fun steps hsteps => ?_
  congr 2
  refine List.map_congr_left fun d hd => ?_
  exact step_loss_eq st muPos muNeg Cemb d (hmask steps hsteps d hd)

/-- The scalar _tf_loss computes WITHOUT use_max_sim_neg (the all-negatives
variant, composed with _tf_sim): mu is the vector (mu_pos, mu_neg, ...,
mu_neg) of length num_neg + 1, factors is (-1, 1, ..., 1) of the length of
the similarity row, max_margin = max(0, mu + factors * sim) is summed over
all candidates and multiplied by the mask (numpy broadcasting requires the
candidate count to equal num_neg + 1, which training guarantees); then the
same hinged inter-action term, time sum, valid-count division, batch mean
and regularization as the other variant. -/
noncomputable def tf_loss_all_neg (st : SimType) (muPos muNeg Cemb : ℝ)
    (numNeg : ℕ) (batch : List (List StepData)) (regLoss : ℝ) : ℝ :=
  (batch.map (fun steps =>
      (steps.map (fun d =>
        (List.zipWith (fun mu fs => max 0 (mu + fs))
            (muPos :: List.replicate numNeg muNeg)
            (List.zipWith (fun fa s => fa * s)
              ((-1 : ℝ) :: List.replicate ((tf_sim_step st d).1.length - 1) 1)
              (tf_sim_step st d).1)).sum * d.mask +
          max 0 (reduceMax (tf_sim_step st d).2) * Cemb)).sum /
        (steps.map (fun d => d.mask)).sum)).sum / (batch.length : ℝ) + regLoss

/-- The amended claim for the all-negatives variant as a formula: per valid
step, hinge(mu_pos - sim_pos) plus the sum over negatives of
hinge(mu_neg + sim_neg), plus the hinged inter-action penalty
C_emb * max(0, max(sim_act)), masked by step validity, summed over time,
divided by the valid step count, averaged over the batch, plus the
regularization loss. -/
noncomputable def spec_loss_all_neg_hinged (st : SimType)
    (muPos muNeg Cemb : ℝ) (batch : List (List StepData))
    (regLoss : ℝ) : ℝ :=
  (batch.map (fun steps =>
      (steps.map (fun d =>
        ((max 0 (muPos - spec_similarity st d.embDial (d.embActs.headD [])) +
            ((d.embActs.drop 1).map (fun a =>
              max 0 (muNeg + spec_similarity st d.embDial a))).sum) +
          Cemb * max 0 (reduceMax ((d.embActs.drop 1).map
            (spec_similarity st (d.embActs.headD []))))) * d.mask)).sum /
        (steps.map (fun d => d.mask)).sum)).sum / (batch.length : ℝ) + regLoss

/-- Elementwise product with a replicated factor 1 is the identity. -/
theorem zipWith_one_mul (n : ℕ) (l : List ℝ) (h : l.length = n) :
    List.zipWith (fun fa s => fa * s) (List.replicate n (1 : ℝ)) l = l := by
  induction l generalizing n with
  | nil => cases h; rfl
  | cons a tl ih =>
    cases h
    simp [List.replicate_succ, ih tl.length rfl]

/-- Hinging against a replicated margin maps the hinge over the list. -/
theorem zipWith_replicate_hinge (c : ℝ) (n : ℕ) (l : List ℝ)
    (h : l.length = n) :
    List.zipWith (fun mu fs => max 0 (mu + fs)) (List.replicate n c) l =
      l.map (fun s => max 0 (c + s)) := by
  induction l generalizing n with
  | nil => cases h; rfl
  | cons a tl ih =>
    cases h
    simp [List.replicate_succ, ih tl.length rfl]

/-- The per-step summand of the all-negatives _tf_loss equals the per-step
summand of the hinged spec formula whenever the mask entry is 0 or 1 and the
candidate count is num_neg + 1 (the shape numpy broadcasting requires). -/
theorem step_loss_all_neg_eq (st : SimType) (muPos muNeg Cemb : ℝ)
    (numNeg : ℕ) (d : StepData) (hm : d.mask = 0 ∨ d.mask = 1)
    (hcand : d.embActs.length = numNeg + 1) :
    (List.zipWith (fun mu fs => max 0 (mu + fs))
        (muPos :: List.replicate numNeg muNeg)
        (List.zipWith (fun fa s => fa * s)
          ((-1 : ℝ) :: List.replicate ((tf_sim_step st d).1.length - 1) 1)
          (tf_sim_step st d).1)).sum * d.mask +
      max 0 (reduceMax (tf_sim_step st d).2) * Cemb =
    ((max 0 (muPos - spec_similarity st d.embDial (d.embActs.headD [])) +
        ((d.embActs.drop 1).map (fun a =>
          max 0 (muNeg + spec_similarity st d.embDial a))).sum) +
      Cemb * max 0 (reduceMax ((d.embActs.drop 1).map
        (spec_similarity st (d.embActs.headD []))))) * d.mask := by
  obtain ⟨dial, acts, m⟩ := d
  simp only at hcand
  rcases hm with hm | hm <;> simp only at hm <;> subst hm
  · have hzero : reduceMax ((tf_sim_step st ⟨dial, acts, 0⟩).2) = 0 := by
      apply reduceMax_eq_zero
      intro x hx
      cases st <;>
        simp only [tf_sim_step, List.mem_map] at hx <;>
        obtain ⟨a, -, ha⟩ := hx <;>
        simp [← ha]
    rw [hzero]
    simp
  · match acts, hcand with
    | a0 :: rest, hcand =>
      have hrest : rest.length = numNeg := by simpa using hcand
      cases st
      · simp only [tf_sim_step, headD_map_l2,
          show spec_similarity SimType.cosine = fun u v =>
            listDot (l2_normalize u) (l2_normalize v) from rfl,
          mul_one, ← List.map_drop, List.map_map, Function.comp_def,
          List.map_cons, List.length_map, List.length_cons,
          Nat.add_sub_cancel, List.zipWith_cons_cons, List.headD_cons,
          List.drop_succ_cons, List.drop_zero]
        rw [zipWith_one_mul rest.length _ (by simp),
          zipWith_replicate_hinge muNeg numNeg _ (by simp [hrest]),
          List.map_map]
        simp only [Function.comp_def, List.sum_cons, neg_one_mul,
          ← sub_eq_add_neg]
        ring
      · simp only [tf_sim_step,
          show spec_similarity SimType.inner = fun u v => listDot u v
            from rfl,
          mul_one, List.map_cons, List.length_map, List.length_cons,
          Nat.add_sub_cancel, List.zipWith_cons_cons, List.headD_cons,
          List.drop_succ_cons, List.drop_zero]
        rw [zipWith_one_mul rest.length _ (by simp),
          zipWith_replicate_hinge muNeg numNeg _ (by simp [hrest]),
          List.map_map]
        simp only [Function.comp_def, List.sum_cons, neg_one_mul,
          ← sub_eq_add_neg]
        ring

/-- The all-negatives loss equals the hinged spec formula on every batch of
0/1 masks whose candidate sets have num_neg + 1 entries. -/
theorem tf_loss_all_neg_spec (st : SimType) (muPos muNeg Cemb regLoss : ℝ)
    (numNeg : ℕ) (batch : List (List StepData))
    (hmask : ∀ steps ∈ batch, ∀ d ∈ steps, d.mask = 0 ∨ d.mask = 1)
    (hcand : ∀ steps ∈ batch, ∀ d ∈ steps, d.embActs.length = numNeg + 1) :
    tf_loss_all_neg st muPos muNeg Cemb numNeg batch regLoss =
      spec_loss_all_neg_hinged st muPos muNeg Cemb batch regLoss := by
  unfold tf_loss_all_neg spec_loss_all_neg_hinged
  congr 3
  refine List.map_congr_left fun steps hsteps => ?_
  congr 2
  refine List.map_congr_left fun d hd => ?_
  exact step_loss_all_neg_eq st muPos muNeg Cemb numNeg d
    (hmask steps hsteps d hd) (hcand steps hsteps d hd)

/-- C3 amended: under use_max_sim_neg the per-step loss is
hinge(mu_pos - sim_pos) + hinge(mu_neg + max(sim_negatives)); without it
(the all-negatives variant) it is hinge(mu_pos - sim_pos) plus the sum of
hinge(mu_neg + sim_neg) over all negatives; BOTH variants add the HINGED
inter-action term C_emb * max(0, max(sim_act)), are masked by step validity,
summed over time, divided by the valid step count per dialogue, averaged
over the batch, and the regularization penalty is added. -/
theorem tf_loss_spec (st : SimType) (muPos muNeg Cemb regLoss : ℝ)
    (numNeg : ℕ) (batch : List (List StepData))
    (hmask : ∀ steps ∈ batch, ∀ d ∈ steps, d.mask = 0 ∨ d.mask = 1)
    (hcand : ∀ steps ∈ batch, ∀ d ∈ steps, d.embActs.length = numNeg + 1) :
    tf_loss_max_sim st muPos muNeg Cemb batch regLoss =
      spec_loss_hinged st muPos muNeg Cemb batch regLoss ∧
    tf_loss_all_neg st muPos muNeg Cemb numNeg batch regLoss =
      spec_loss_all_neg_hinged st muPos muNeg Cemb batch regLoss :=
  ⟨tf_loss_max_sim_spec st muPos muNeg Cemb regLoss batch hmask,
   tf_loss_all_neg_spec st muPos muNeg Cemb regLoss numNeg batch hmask hcand⟩

/-- Witness for the amended C3 at the one-step inner-kind batch of the
counterexample (one negative, so num_neg = 1 and two candidates). -/
theorem tf_loss_spec_witness :
    tf_loss_max_sim SimType.inner (8 / 10) (-(2 / 10)) (8 / 10)
        [[⟨[1], [[1], [-1]], 1⟩]] 0 =
      spec_loss_hinged SimType.inner (8 / 10) (-(2 / 10)) (8 / 10)
        [[⟨[1], [[1], [-1]], 1⟩]] 0 ∧
    tf_loss_all_neg SimType.inner (8 / 10) (-(2 / 10)) (8 / 10) 1
        [[⟨[1], [[1], [-1]], 1⟩]] 0 =
      spec_loss_all_neg_hinged SimType.inner (8 / 10) (-(2 / 10)) (8 / 10)
        [[⟨[1], [[1], [-1]], 1⟩]] 0 :=
  tf_loss_spec SimType.inner (8 / 10) (-(2 / 10)) (8 / 10) 0 1
    [[⟨[1], [[1], [-1]], 1⟩]]
    (by
      intro steps hsteps d hd
      simp only [List.mem_singleton] at hsteps
      subst hsteps
      simp only [List.mem_singleton] at hd
      subst hd
      exact Or.inr rfl)
    (by
      intro steps hsteps d hd
      simp only [List.mem_singleton] at hsteps
      subst hsteps
      simp only [List.mem_singleton] at hd
      subst hd
      rfl)

/-- Softmax over a list of scores. -/
noncomputable def softmaxList (l : List ℝ) : List ℝ :=
  l.map (fun x => Real.exp x / (l.map Real.exp).sum)

/-- Softplus. -/
noncomputable def softplus (x : ℝ) : ℝ := Real.log (1 + Real.exp x)

/-- Zero-padded indexing into a list, as SAME-padding convolution reads its
input. -/
def getPad (l : List ℝ) (i : ℤ) : ℝ :=
  if 0 ≤ i then l.getD i.toNat 0 else 0

/-- One-channel depthwise convolution with stride 1 and SAME padding as
tensorflow computes it: cross-correlation with the kernel, the input read
through zero padding of width (kernel length - 1) / 2 on the left. -/
noncomputable def convSame (kernel l : List ℝ) : List ℝ :=
  (List.range l.length).map (fun (j : ℕ) =>
    ((List.range kernel.length).map (fun (k : ℕ) =>
      kernel.getD k 0 *
        getPad l ((j : ℤ) + (k : ℤ) - ((kernel.length : ℤ) - 1) / 2))).sum)

/-- The timed NTM call, with the learned heads evaluated: g is the
interpolation gate output, shiftKernel the softmax shift weighting (None
when attn_shift_range is 0), gamma the sharpening power.  The probabilities
over positions 0..t are blended with the previous probability state (the
newest position unmodified), softmaxed, optionally convolved with the shift
kernel along reversed time, then raised to the power gamma and renormalized
with a 1e-32 guard; the pre-softmax blend is the next probability state. -/
noncomputable def timed_ntm_call (g : ℝ) (shiftKernel : Option (List ℝ))
    (gamma : ℝ) (probs probsState : List ℝ) : List ℝ × List ℝ :=
  let blended := (List.zipWith (fun p s => g * p + (1 - g) * s)
      probs.dropLast probsState) ++ probs.drop (probs.length - 1)
  let soft := softmaxList blended
  let shifted := match shiftKernel with
    | none => soft
    | some k => (convSame k soft.reverse).reverse
  let powed := shifted.map (fun x => x ^ gamma)
  (powed.map (fun x => x / (powed.sum + 1e-32)), blended)

/-- The time-limited attention step: it takes the raw alignments produced by
the attention mechanism, restricts them to positions 0..time and the carried
attention state to positions 0..time-1, runs the timed NTM, and pads the
sharpened probabilities and the next probability state back to full memory
length with zeros. -/
noncomputable def compute_time_attention (g : ℝ)
    (shiftKernel : Option (List ℝ)) (gamma : ℝ)
    (alignments attentionState : List ℝ) (time : ℕ) : List ℝ × List ℝ :=
  let probs := alignments.take (time + 1)
  let probsState := attentionState.take time
  let out := timed_ntm_call g shiftKernel gamma probs probsState
  (out.1 ++ List.replicate (alignments.length - (time + 1)) 0,
   out.2 ++ List.replicate (alignments.length - (time + 1)) 0)

/-- The alignment vector emitted at one recurrence step. -/
noncomputable def emitted_alignment (g : ℝ) (shiftKernel : Option (List ℝ))
    (gamma : ℝ) (alignments attentionState : List ℝ) (time : ℕ) : List ℝ :=
  (compute_time_attention g shiftKernel gamma alignments attentionState
    time).1

/-- A list sum is positive when all entries are nonnegative and one entry is
positive. -/
theorem list_sum_pos_of_mem {l : List ℝ} (hnn : ∀ x ∈ l, 0 ≤ x)
    {y : ℝ} (hy : y ∈ l) (hypos : 0 < y) : 0 < l.sum :=
  lt_of_lt_of_le hypos (List.single_le_sum hnn y hy)

/-- Every entry of a softmax over a non-empty list is positive. -/
theorem softmaxList_pos {l : List ℝ} (hl : l ≠ []) :
    ∀ x ∈ softmaxList l, 0 < x := by
  intro x hx
  obtain ⟨y, -, hy⟩ := List.mem_map.mp hx
  subst hy
  refine div_pos (Real.exp_pos y) ?_
  apply List.sum_pos
  · intro z hz
    obtain ⟨w, -, hw⟩ := List.mem_map.mp hz
    exact hw ▸ Real.exp_pos w
  · simpa using hl

/-- Reading a list of nonnegative entries through getPad is nonnegative. -/
theorem getPad_nonneg {l : List ℝ} (h : ∀ x ∈ l, 0 ≤ x) (i : ℤ) :
    0 ≤ getPad l i := by
  unfold getPad
  split
  · rcases lt_or_ge i.toNat l.length with hlt | hge
    · rw [List.getD_eq_getElem l 0 hlt]
      exact h _ (List.getElem_mem hlt)
    · rw [List.getD_eq_default l 0 hge]
  · exact le_refl 0

/-- SAME convolution with an everywhere-positive kernel preserves the
positivity of all entries: the central tap always reads a real input
position. -/
theorem convSame_pos {kernel l : List ℝ} (hkpos : ∀ x ∈ kernel, 0 < x)
    (hkne : kernel ≠ []) (hlpos : ∀ x ∈ l, 0 < x) :
    ∀ x ∈ convSame kernel l, 0 < x := by
  intro x hx
  unfold convSame at hx
  obtain ⟨j, hj, hjx⟩ := List.mem_map.mp hx
  rw [List.mem_range] at hj
  subst hjx
  have hK1 : 1 ≤ kernel.length := List.length_pos.mpr hkne
  set r : ℤ := ((kernel.length : ℤ) - 1) / 2 with hr
  have hr0 : 0 ≤ r := by omega
  have hrK : r.toNat < kernel.length := by omega
  have helem : kernel.getD r.toNat 0 *
      getPad l ((j : ℤ) + (r.toNat : ℤ) - r) ∈
      (List.range kernel.length).map (fun k =>
        kernel.getD k 0 * getPad l ((j : ℤ) + (k : ℤ) - r)) :=
    List.mem_map.mpr ⟨r.toNat, List.mem_range.mpr hrK, rfl⟩
  refine list_sum_pos_of_mem ?_ helem ?_
  · intro z hz
    obtain ⟨k, -, hk⟩ := List.mem_map.mp hz
    subst hk
    refine mul_nonneg ?_ (getPad_nonneg (fun y hy => (hlpos y hy).le) _)
    rcases lt_or_ge k kernel.length with h1 | h1
    · rw [List.getD_eq_getElem kernel 0 h1]
      exact (hkpos _ (List.getElem_mem h1)).le
    · rw [List.getD_eq_default kernel 0 h1]
  · have hidx : (j : ℤ) + (r.toNat : ℤ) - r = (j : ℤ) := by
      rw [Int.toNat_of_nonneg hr0]; ring
    rw [hidx]
    have hj0 : getPad l (j : ℤ) = l.getD j 0 := by
      simp [getPad]
    rw [hj0]
    refine mul_pos ?_ ?_
    · rw [List.getD_eq_getElem kernel 0 hrK]
      exact hkpos _ (List.getElem_mem hrK)
    · rw [List.getD_eq_getElem l 0 hj]
      exact hlpos _ (List.getElem_mem hj)

/-- Reading a list of zeros through getD is zero. -/
theorem getD_replicate_zero (n m : ℕ) :
    (List.replicate n (0 : ℝ)).getD m 0 = 0 := by
  rcases lt_or_ge m (List.replicate n (0 : ℝ)).length with hlt | hge
  · rw [List.getD_eq_getElem _ 0 hlt, List.getElem_replicate]
  · rw [List.getD_eq_default _ 0 hge]

/-- SAME convolution preserves list length. -/
theorem convSame_length (kernel l : List ℝ) :
    (convSame kernel l).length = l.length := by
  simp [convSame]

/-- Dividing every list entry by a constant divides the sum. -/
theorem list_sum_map_div (l : List ℝ) (c : ℝ) :
    (l.map (fun x => x / c)).sum = l.sum / c := by
  induction l with
  | nil => simp
  | cons a tl ih => simp [ih, add_div]

/-- The sharpening stage: raising an everywhere-positive non-empty list to
the power gamma and renormalizing with the 1e-32 guard yields a list of the
same length whose sum is S / (S + 1e-32) for the positive total S of the
powered entries — positive, at most 1, and within 1e-32 / S of 1. -/
theorem sharpen_powed_spec (shifted : List ℝ) (gamma : ℝ)
    (hpos : ∀ x ∈ shifted, 0 < x) (hne : shifted ≠ []) :
    ((shifted.map (fun x => x ^ gamma)).map (fun x =>
        x / ((shifted.map (fun x => x ^ gamma)).sum + 1e-32))).length =
      shifted.length ∧
    ∃ S : ℝ, 0 < S ∧
      ((shifted.map (fun x => x ^ gamma)).map (fun x =>
          x / ((shifted.map (fun x => x ^ gamma)).sum + 1e-32))).sum =
        S / (S + 1e-32) ∧
      0 < ((shifted.map (fun x => x ^ gamma)).map (fun x =>
          x / ((shifted.map (fun x => x ^ gamma)).sum + 1e-32))).sum ∧
      ((shifted.map (fun x => x ^ gamma)).map (fun x =>
          x / ((shifted.map (fun x => x ^ gamma)).sum + 1e-32))).sum ≤ 1 ∧
      1 - 1e-32 / S ≤ ((shifted.map (fun x => x ^ gamma)).map (fun x =>
          x / ((shifted.map (fun x => x ^ gamma)).sum + 1e-32))).sum := by
  set P := shifted.map (fun x => x ^ gamma) with hP
  have hPpos : ∀ x ∈ P, 0 < x := by
    intro x hx
    obtain ⟨y, hy, rfl⟩ := List.mem_map.mp hx
    exact Real.rpow_pos_of_pos (hpos y hy) gamma
  have hPne : P ≠ [] := by simp [hP, hne]
  have hS : 0 < P.sum := List.sum_pos P hPpos hPne
  have heps : (0 : ℝ) < 1e-32 := by norm_num
  have hden : 0 < P.sum + 1e-32 := by linarith
  have hsum : (P.map (fun x => x / (P.sum + 1e-32))).sum =
      P.sum / (P.sum + 1e-32) := list_sum_map_div P _
  refine ⟨by simp [hP], P.sum, hS, hsum, ?_, ?_, ?_⟩
  · rw [hsum]
    exact div_pos hS hden
  · rw [hsum, div_le_one hden]
    linarith
  · rw [hsum]
    have h1 : P.sum / (P.sum + 1e-32) = 1 - 1e-32 / (P.sum + 1e-32) := by
      field_simp
    have h2 : (1e-32 : ℝ) / (P.sum + 1e-32) ≤ 1e-32 / P.sum := by
      apply div_le_div_of_nonneg_left heps.le hS
      linarith
    linarith

/-- The probabilities returned by one timed NTM call, when the carried state
is one position shorter than the probability prefix (the recurrence
invariant) and the shift kernel is either absent (shift range 0) or a
softmax weighting: the output has the length of the prefix and sums to
S / (S + 1e-32) for the positive sharpening total S. -/
theorem timed_ntm_call_fst_spec (g gamma : ℝ) (w : List ℝ)
    (sk : Option (List ℝ)) (probs probsState : List ℝ)
    (hpne : probs ≠ [])
    (hlen : probsState.length + 1 = probs.length)
    (hker : sk = none ∨ (sk = some (softmaxList w) ∧ w ≠ [])) :
    (timed_ntm_call g sk gamma probs probsState).1.length = probs.length ∧
    ∃ S : ℝ, 0 < S ∧
      (timed_ntm_call g sk gamma probs probsState).1.sum =
        S / (S + 1e-32) ∧
      0 < (timed_ntm_call g sk gamma probs probsState).1.sum ∧
      (timed_ntm_call g sk gamma probs probsState).1.sum ≤ 1 ∧
      1 - 1e-32 / S ≤ (timed_ntm_call g sk gamma probs probsState).1.sum := by
  set B := List.zipWith (fun p s => g * p + (1 - g) * s)
      probs.dropLast probsState ++ probs.drop (probs.length - 1) with hB
  have hple : 1 ≤ probs.length := List.length_pos.mpr hpne
  have hBlen : B.length = probs.length := by
    rw [hB, List.length_append, List.length_zipWith, List.length_dropLast,
      List.length_drop]
    omega
  have hBne : B ≠ [] := by
    intro h
    rw [h] at hBlen
    simp at hBlen
    omega
  have hSpos := softmaxList_pos hBne
  have hSlen : (softmaxList B).length = B.length := by
    simp [softmaxList]
  have hSne : softmaxList B ≠ [] := by
    simp [softmaxList, hBne]
  rcases hker with rfl | ⟨rfl, hwne⟩
  · have hfst : (timed_ntm_call g none gamma probs probsState).1 =
        ((softmaxList B).map (fun x => x ^ gamma)).map (fun x =>
          x / (((softmaxList B).map (fun x => x ^ gamma)).sum + 1e-32)) := by
      rw [hB]
      rfl
    obtain ⟨hlen1, S, hS, h1, h2, h3, h4⟩ :=
      sharpen_powed_spec (softmaxList B) gamma hSpos hSne
    rw [hfst]
    exact ⟨by rw [hlen1, hSlen, hBlen], S, hS, h1, h2, h3, h4⟩
  · have hkpos := softmaxList_pos hwne
    have hkne : softmaxList w ≠ [] := by
      simp [softmaxList, hwne]
    have hrevpos : ∀ x ∈ (softmaxList B).reverse, 0 < x := by
      intro x hx
      exact hSpos x (List.mem_reverse.mp hx)
    have hrevne : (softmaxList B).reverse ≠ [] := by
      simp [hSne]
    have hconvpos := convSame_pos hkpos hkne hrevpos
    have hshpos : ∀ x ∈ (convSame (softmaxList w)
        (softmaxList B).reverse).reverse, 0 < x := by
      intro x hx
      exact hconvpos x (List.mem_reverse.mp hx)
    have hshlen : (convSame (softmaxList w)
        (softmaxList B).reverse).reverse.length = probs.length := by
      rw [List.length_reverse, convSame_length, List.length_reverse,
        hSlen, hBlen]
    have hshne : (convSame (softmaxList w)
        (softmaxList B).reverse).reverse ≠ [] := by
      intro h
      rw [h] at hshlen
      simp at hshlen
      omega
    have hfst : (timed_ntm_call g (some (softmaxList w)) gamma probs
        probsState).1 =
        ((convSame (softmaxList w) (softmaxList B).reverse).reverse.map
          (fun x => x ^ gamma)).map (fun x =>
            x / (((convSame (softmaxList w)
              (softmaxList B).reverse).reverse.map
                (fun x => x ^ gamma)).sum + 1e-32)) := by
      rw [hB]
      rfl
    obtain ⟨hlen1, S, hS, h1, h2, h3, h4⟩ :=
      sharpen_powed_spec ((convSame (softmaxList w)
        (softmaxList B).reverse).reverse) gamma hshpos hshne
    rw [hfst]
    exact ⟨by rw [hlen1, hshlen], S, hS, h1, h2, h3, h4⟩

/-- C1: the alignment emitted at recurrence step time is zero at every
memory position strictly greater than time, has full memory length, and its
entries (all mass lies in positions 0..time) sum to S / (S + 1e-32) for the
positive sharpening total S — a sum that is positive, at most 1, and within
1e-32 / S of 1, the floating guard of the renormalization — both without a
shift kernel (attn_shift_range 0) and with any softmax shift kernel
(attn_shift_range 3 gives a width-7 kernel). -/
theorem emitted_alignment_spec (g gamma : ℝ) (w : List ℝ)
    (shiftKernel : Option (List ℝ))
    (alignments attentionState : List ℝ) (time : ℕ)
    (htime : time < alignments.length)
    (hstate : attentionState.length = alignments.length)
    (hker : shiftKernel = none ∨
      (shiftKernel = some (softmaxList w) ∧ w ≠ [])) :
    (∀ i, time < i →
      (emitted_alignment g shiftKernel gamma alignments attentionState
        time).getD i 0 = 0) ∧
    (emitted_alignment g shiftKernel gamma alignments attentionState
        time).length = alignments.length ∧
    ∃ S : ℝ, 0 < S ∧
      (emitted_alignment g shiftKernel gamma alignments attentionState
          time).sum = S / (S + 1e-32) ∧
      0 < (emitted_alignment g shiftKernel gamma alignments attentionState
          time).sum ∧
      (emitted_alignment g shiftKernel gamma alignments attentionState
          time).sum ≤ 1 ∧
      1 - 1e-32 / S ≤ (emitted_alignment g shiftKernel gamma alignments
          attentionState time).sum := by
  have hple : (alignments.take (time + 1)).length = time + 1 := by
    rw [List.length_take]
    omega
  have hpne : alignments.take (time + 1) ≠ [] := by
    intro h
    rw [h] at hple
    simp at hple
  have hpslen : (attentionState.take time).length + 1 =
      (alignments.take (time + 1)).length := by
    rw [List.length_take, hple]
    omega
  obtain ⟨hclen, S, hS, hsum, hpos, hle, htol⟩ :=
    timed_ntm_call_fst_spec g gamma w shiftKernel
      (alignments.take (time + 1)) (attentionState.take time)
      hpne hpslen hker
  have hout : emitted_alignment g shiftKernel gamma alignments
      attentionState time =
      (timed_ntm_call g shiftKernel gamma (alignments.take (time + 1))
          (attentionState.take time)).1 ++
        List.replicate (alignments.length - (time + 1)) 0 := rfl
  have hclen1 : (timed_ntm_call g shiftKernel gamma
      (alignments.take (time + 1)) (attentionState.take time)).1.length =
      time + 1 := by
    rw [hclen, hple]
  have hsum_out : (emitted_alignment g shiftKernel gamma alignments
      attentionState time).sum =
      (timed_ntm_call g shiftKernel gamma (alignments.take (time + 1))
        (attentionState.take time)).1.sum := by
    rw [hout, List.sum_append]
    simp [List.sum_replicate]
  refine ⟨?_, ?_, S, hS, ?_, ?_, ?_, ?_⟩
  · intro i hi
    rw [hout, List.getD_append_right _ _ _ _ (by omega), getD_replicate_zero]
  · rw [hout, List.length_append, hclen1, List.length_replicate]
    omega
  · rw [hsum_out]
    exact hsum
  · rw [hsum_out]
    exact hpos
  · rw [hsum_out]
    exact hle
  · rw [hsum_out]
    exact htol

/-- Witness for C1 at step 1 over a memory of length 3, with the gate output
0, sharpening power 2 and a width-7 softmax shift kernel (shift range 3). -/
theorem emitted_alignment_spec_witness :
    (∀ i, 1 < i →
      (emitted_alignment 0 (some (softmaxList [0, 0, 0, 0, 0, 0, 0])) 2
        [0, 0, 0] [0, 0, 0] 1).getD i 0 = 0) ∧
    (emitted_alignment 0 (some (softmaxList [0, 0, 0, 0, 0, 0, 0])) 2
        [0, 0, 0] [0, 0, 0] 1).length = ([0, 0, 0] : List ℝ).length ∧
    ∃ S : ℝ, 0 < S ∧
      (emitted_alignment 0 (some (softmaxList [0, 0, 0, 0, 0, 0, 0])) 2
          [0, 0, 0] [0, 0, 0] 1).sum = S / (S + 1e-32) ∧
      0 < (emitted_alignment 0 (some (softmaxList [0, 0, 0, 0, 0, 0, 0])) 2
          [0, 0, 0] [0, 0, 0] 1).sum ∧
      (emitted_alignment 0 (some (softmaxList [0, 0, 0, 0, 0, 0, 0])) 2
          [0, 0, 0] [0, 0, 0] 1).sum ≤ 1 ∧
      1 - 1e-32 / S ≤ (emitted_alignment 0
          (some (softmaxList [0, 0, 0, 0, 0, 0, 0])) 2
          [0, 0, 0] [0, 0, 0] 1).sum :=
  emitted_alignment_spec 0 2 [0, 0, 0, 0, 0, 0, 0]
    (some (softmaxList [0, 0, 0, 0, 0, 0, 0])) [0, 0, 0] [0, 0, 0] 1
    (by simp) (by simp) (Or.inr ⟨rfl, by simp⟩)

end EmbeddingPolicy
